import Mathlib

/-!
Verification of the pinned-dependency CI scripts (`ci/check_pinned_deps.py`,
`ci/check_upstream_versions.py`, `ci/create_update_pr.py`, `ci/check_scan_results.py`)
against their natural-language specification.  Python strings are modelled as
`String`/`List Char`, dictionaries as structures, external processes (`crane`, `gh`,
`git`) as explicit oracle functions of type `... → Option String` or boolean flags.
-/

namespace CF

/-! ## String primitives used by the scripts -/

/-- Python regex `\s` on the ASCII inputs these scripts handle:
space, tab, newline, carriage return, vertical tab, form feed. -/
def isPySpace (c : Char) : Bool :=
  c = ' ' || c = '\t' || c = '\n' || c = '\r' || c = '\x0b' || c = '\x0c'

/-- Boolean list-prefix test (Python `str.startswith`, or a literal regex fragment). -/
def isPrefixL : List Char → List Char → Bool
  | [], _ => true
  | _ :: _, [] => false
  | a :: as, b :: bs => a = b && isPrefixL as bs

/-- Split at the first occurrence of `pat` (Python `s.split(pat, 1)` when it succeeds):
`findSub pat s = some (pre, suf)` means `s = pre ++ pat ++ suf` at the first occurrence,
`none` means `pat` does not occur in `s`. -/
def findSub (pat : List Char) : List Char → Option (List Char × List Char)
  | [] => if pat.isEmpty then some ([], []) else none
  | c :: cs =>
    if isPrefixL pat (c :: cs) then some ([], (c :: cs).drop pat.length)
    else
      match findSub pat cs with
      | some (pre, suf) => some (c :: pre, suf)
      | none => none

/-- Split at the last occurrence of `sep` (Python `s.rsplit(sep, 1)` when a separator
is present; `none` when `sep` does not occur). -/
def rsplitChar (sep : Char) : List Char → Option (List Char × List Char)
  | [] => none
  | c :: cs =>
    match rsplitChar sep cs with
    | some (pre, suf) => some (c :: pre, suf)
    | none => if c = sep then some ([], cs) else none

theorem isPrefixL_append : ∀ (p s : List Char), isPrefixL p s = true → s = p ++ s.drop p.length
  | [], s, _ => by simp
  | _ :: _, [], h => by simp [isPrefixL] at h
  | a :: as, b :: bs, h => by
    simp only [isPrefixL, Bool.and_eq_true, decide_eq_true_eq] at h
    obtain ⟨rfl, h2⟩ := h
    simpa using isPrefixL_append as bs h2

theorem findSub_eq : ∀ (pat s pre suf : List Char),
    findSub pat s = some (pre, suf) → s = pre ++ pat ++ suf
  | pat, [], pre, suf, h => by
    simp only [findSub] at h
    split at h
    · rename_i hp
      simp only [Option.some.injEq, Prod.mk.injEq] at h
      obtain ⟨rfl, rfl⟩ := h
      simp_all [List.isEmpty_iff]
    · exact absurd h (by simp)
  | pat, c :: cs, pre, suf, h => by
    simp only [findSub] at h
    split at h
    · rename_i hp
      simp only [Option.some.injEq, Prod.mk.injEq] at h
      obtain ⟨rfl, rfl⟩ := h
      simpa using isPrefixL_append pat (c :: cs) hp
    · revert h
      match hrec : findSub pat cs with
      | some (p2, s2) =>
        intro h
        simp only [Option.some.injEq, Prod.mk.injEq] at h
        obtain ⟨rfl, rfl⟩ := h
        have := findSub_eq pat cs p2 s2 hrec
        simp [this]
      | none => intro h; exact absurd h (by simp)

theorem rsplitChar_eq : ∀ (sep : Char) (s pre suf : List Char),
    rsplitChar sep s = some (pre, suf) → s = pre ++ sep :: suf
  | _, [], _, _, h => by simp [rsplitChar] at h
  | sep, c :: cs, pre, suf, h => by
    cases hrec : rsplitChar sep cs with
    | some p =>
      obtain ⟨p2, s2⟩ := p
      simp only [rsplitChar, hrec, Option.some.injEq, Prod.mk.injEq] at h
      obtain ⟨rfl, rfl⟩ := h
      have := rsplitChar_eq sep cs p2 s2 hrec
      simp [this]
    | none =>
      simp only [rsplitChar, hrec] at h
      split at h
      · rename_i hc
        simp only [Option.some.injEq, Prod.mk.injEq] at h
        obtain ⟨rfl, rfl⟩ := h
        simp [hc]
      · exact absurd h (by simp)

theorem rsplitChar_none : ∀ (sep : Char) (s : List Char),
    rsplitChar sep s = none → sep ∉ s
  | _, [], _ => by simp
  | sep, c :: cs, h => by
    cases hrec : rsplitChar sep cs with
    | some p =>
      obtain ⟨p2, s2⟩ := p
      simp [rsplitChar, hrec] at h
    | none =>
      simp only [rsplitChar, hrec] at h
      split at h
      · exact absurd h (by simp)
      · rename_i hc
        have := rsplitChar_none sep cs hrec
        simp only [List.mem_cons, not_or]
        exact ⟨fun he => hc he.symm, this⟩

theorem rsplitChar_isSome : ∀ (sep : Char) (s : List Char),
    sep ∈ s → (rsplitChar sep s).isSome
  | sep, c :: cs, h => by
    cases hrec : rsplitChar sep cs with
    | some p =>
      obtain ⟨p2, s2⟩ := p
      simp [rsplitChar, hrec]
    | none =>
      have hnot := rsplitChar_none sep cs hrec
      simp only [List.mem_cons] at h
      rcases h with rfl | h
      · simp [rsplitChar, hrec]
      · exact absurd h hnot

/-! ## Version parsing and comparison (`check_upstream_versions.py`, class `Version`) -/

/-- Maximal runs of decimal digits, in order (`re.findall(r"\d+", v_str)`). -/
def digitRuns : List Char → List (List Char)
  | [] => []
  | c :: cs =>
    if c.isDigit then
      match cs, digitRuns cs with
      | d :: _, r :: rs => if d.isDigit then (c :: r) :: rs else [c] :: r :: rs
      | _, rs => [c] :: rs
    else digitRuns cs

/-- Decimal value of a digit run (Python `int(p)`). -/
def runToNat (r : List Char) : Nat := r.foldl (fun a c => 10 * a + (c.toNat - 48)) 0

/-- `Version(s).parts`: the maximal digit runs of the string as numbers. -/
def vparts (s : String) : List Nat := (digitRuns s.data).map runToNat

/-- `Version(s).major` (`parts[0]` when present, else `0`). -/
def vmajor (s : String) : Nat := (vparts s).getD 0 0

/-- `Version(s).minor` (`parts[1]` when present, else `0`). -/
def vminor (s : String) : Nat := (vparts s).getD 1 0

/-- `Version(s).micro` (`parts[2]` when present, else `0`). -/
def vmicro (s : String) : Nat := (vparts s).getD 2 0

/-- The zero-padded (major, minor, micro) triple stored on a `Version` object. -/
def vtriple (s : String) : Nat × Nat × Nat := (vmajor s, vminor s, vmicro s)

/-- Python list `<` on lists of naturals: first differing element decides,
and a strict prefix compares less. `Version.__lt__` is `self.parts < other.parts`. -/
def partsLt : List Nat → List Nat → Bool
  | [], [] => false
  | [], _ :: _ => true
  | _ :: _, [] => false
  | a :: as, b :: bs => if a < b then true else if b < a then false else partsLt as bs

/-- `Version(a) < Version(b)`. -/
def versionLt (a b : String) : Bool := partsLt (vparts a) (vparts b)

/-- `Version(a) == Version(b)` (`self.parts == other.parts`). -/
def versionEq (a b : String) : Bool := vparts a == vparts b

theorem partsLt_irrefl : ∀ a : List Nat, partsLt a a = false
  | [] => rfl
  | x :: xs => by simp [partsLt, partsLt_irrefl xs]

theorem partsLt_asymm : ∀ a b : List Nat, partsLt a b = true → partsLt b a = false
  | [], [], h => by simp [partsLt] at h ⊢
  | [], _ :: _, _ => by simp [partsLt]
  | _ :: _, [], h => by simp [partsLt] at h
  | a :: as, b :: bs, h => by
    simp only [partsLt] at h ⊢
    rcases Nat.lt_trichotomy a b with hab | hab | hab
    · simp [hab, Nat.lt_asymm hab]
    · subst hab
      simp only [Nat.lt_irrefl, if_false] at h ⊢
      exact partsLt_asymm as bs h
    · simp [hab, Nat.lt_asymm hab] at h

theorem partsLt_conn : ∀ a b : List Nat,
    partsLt a b = false → partsLt b a = false → a = b
  | [], [], _, _ => rfl
  | [], _ :: _, h, _ => by simp [partsLt] at h
  | _ :: _, [], _, h => by simp [partsLt] at h
  | a :: as, b :: bs, h1, h2 => by
    simp only [partsLt] at h1 h2
    rcases Nat.lt_trichotomy a b with hab | hab | hab
    · simp [hab] at h1
    · subst hab
      simp only [Nat.lt_irrefl, if_false] at h1 h2
      rw [partsLt_conn as bs h1 h2]
    · simp [hab] at h2

theorem partsLt_trans : ∀ a b c : List Nat,
    partsLt a b = true → partsLt b c = true → partsLt a c = true
  | [], b, [], _, h2 => by cases b <;> simp [partsLt] at h2
  | [], _, _ :: _, _, _ => by simp [partsLt]
  | _ :: _, [], _, h1, _ => by simp [partsLt] at h1
  | _ :: _, _ :: _, [], _, h2 => by simp [partsLt] at h2
  | a :: as, b :: bs, c :: cs, h1, h2 => by
    simp only [partsLt] at h1 h2 ⊢
    rcases Nat.lt_trichotomy a b with hab | hab | hab
    · rcases Nat.lt_trichotomy b c with hbc | hbc | hbc
      · have hac := Nat.lt_trans hab hbc
        simp [hac]
      · subst hbc; simp [hab]
      · simp [hbc, Nat.lt_asymm hbc] at h2
    · subst hab
      rcases Nat.lt_trichotomy a c with hac | hac | hac
      · simp [hac]
      · subst hac
        simp only [Nat.lt_irrefl, if_false] at h1 h2 ⊢
        exact partsLt_trans as bs cs h1 h2
      · simp [hac, Nat.lt_asymm hac] at h2
    · simp [hab, Nat.lt_asymm hab] at h1

/-! ## `check_version_update` (`check_upstream_versions.py`) -/

/-- A `tag_template` value containing a single `{version}` placeholder, modelled as the
literal text before and after the placeholder.  `re.match("^" + escaped-pre + "(.*)" +
escaped-post + "$", v)` succeeds iff `v` starts with `pre` and ends with `post` without
overlap; the capture is the middle. -/
def cleanOf (tmpl : Option (String × String)) (v : String) : Option String :=
  match tmpl with
  | none => some v
  | some (pre, post) =>
    if pre.data.length + post.data.length ≤ v.data.length
        && isPrefixL pre.data v.data
        && isPrefixL post.data.reverse v.data.reverse
    then some (String.mk ((v.data.drop pre.data.length).take
        (v.data.length - pre.data.length - post.data.length)))
    else none

/-- `re.search(r"[a-zA-Z]", clean_v)` is truthy. -/
def hasAlpha (s : String) : Bool :=
  s.data.any (fun c => ('a' ≤ c && c ≤ 'z') || ('A' ≤ c && c ≤ 'Z'))

/-- The candidate-collection loop of `check_version_update`: template extraction, the
alphabetic (pre-release) filter, the nonempty-parts guard, the strictly-greater
comparison, the major match, and the strict-minor match. -/
def candidatesOf (curr : List Nat) (strictMinor : Bool) (tmpl : Option (String × String))
    (avail : List String) : List String :=
  avail.filterMap (fun vstr =>
    match cleanOf tmpl vstr with
    | none => none
    | some cleanV =>
      if hasAlpha cleanV then none
      else
        let p := vparts cleanV
        if p.isEmpty then none
        else if partsLt curr p then
          if p.getD 0 0 ≠ curr.getD 0 0 then none
          else if strictMinor && (p.getD 1 0 != curr.getD 1 0) then none
          else some cleanV
        else none)

/-- Head of `candidates.sort(key=lambda x: Version(x), reverse=True)`: Python's sort is
stable, so the head of the descending sort is the first element whose parts are maximal.
`bestBy` computes exactly that element in one pass. -/
def bestBy : List String → Option String
  | [] => none
  | x :: xs =>
    match bestBy xs with
    | none => some x
    | some y => if partsLt (vparts x) (vparts y) then some y else some x

/-- `check_version_update(curr_ver, available_versions, strict_minor, tag_template)`:
collect qualifying candidates and return the maximal one, or `None` when none qualify. -/
def check_version_update (currVer : String) (avail : List String) (strictMinor : Bool)
    (tmpl : Option (String × String)) : Option String :=
  bestBy (candidatesOf (vparts currVer) strictMinor tmpl avail)

/-- The distinct minor versions among the current entries sharing major `maj`
(the `majors` dictionary built in `main`). -/
def minorsFor (cvs : List String) (maj : Nat) : List Nat :=
  ((cvs.filter (fun cv => vmajor cv == maj)).map vminor).dedup

/-- `main`'s strict flag: more than one distinct minor is tracked for this major. -/
def strictFor (cvs : List String) (maj : Nat) : Bool :=
  1 < (minorsFor cvs maj).length

theorem bestBy_mem : ∀ (l : List String) (m : String), bestBy l = some m → m ∈ l
  | [], _, h => by simp [bestBy] at h
  | x :: xs, m, h => by
    cases hrec : bestBy xs with
    | none =>
      simp only [bestBy, hrec, Option.some.injEq] at h
      simp [h]
    | some y =>
      simp only [bestBy, hrec] at h
      split at h
      · simp only [Option.some.injEq] at h
        exact h ▸ List.mem_cons_of_mem x (bestBy_mem xs y hrec)
      · simp only [Option.some.injEq] at h
        simp [← h]

theorem bestBy_none : ∀ l : List String, bestBy l = none ↔ l = []
  | [] => by simp [bestBy]
  | x :: xs => by
    cases hrec : bestBy xs with
    | none => simp [bestBy, hrec]
    | some y =>
      simp only [bestBy, hrec]
      constructor
      · intro h
        split at h <;> simp at h
      · intro h
        simp at h

theorem bestBy_max : ∀ (l : List String) (m : String), bestBy l = some m →
    ∀ c ∈ l, partsLt (vparts m) (vparts c) = false
  | [], _, h => by simp [bestBy] at h
  | x :: xs, m, h => by
    intro c hc
    cases hrec : bestBy xs with
    | none =>
      have hxs : xs = [] := (bestBy_none xs).mp hrec
      subst hxs
      simp only [bestBy, Option.some.injEq] at h
      subst h
      simp only [List.mem_singleton] at hc
      subst hc
      exact partsLt_irrefl _
    | some y =>
      have ihmax := bestBy_max xs y hrec
      simp only [bestBy, hrec] at h
      rcases List.mem_cons.mp hc with rfl | hcm
      · split at h
        · rename_i hlt
          simp only [Option.some.injEq] at h
          subst h
          exact partsLt_asymm _ _ hlt
        · simp only [Option.some.injEq] at h
          subst h
          exact partsLt_irrefl _
      · split at h
        · simp only [Option.some.injEq] at h
          exact h ▸ ihmax c hcm
        · rename_i hlt
          simp only [Option.some.injEq] at h
          rw [← h]
          simp only [Bool.not_eq_true] at hlt
          have hyc := ihmax c hcm
          cases hyx : partsLt (vparts y) (vparts x) with
          | true =>
            by_contra hxc
            simp only [Bool.not_eq_false] at hxc
            have htr := partsLt_trans _ _ _ hyx hxc
            rw [hyc] at htr
            exact Bool.false_ne_true htr
          | false =>
            have heq := partsLt_conn _ _ hlt hyx
            rw [heq]
            exact hyc

/-! ## Reference scanner (`check_pinned_deps.py`) -/

/-- The `type` field of a Docker record. -/
inductive DockerKind
  | docker_digest
  | docker_unpinned
  deriving DecidableEq

/-- A Docker pin record as built by `find_docker_digests` (one dictionary of `results`). -/
structure DockerRec where
  image : String
  tag : String
  digest : Option String
  kind : DockerKind
  raw : String
  deriving DecidableEq

/-- The literal `"@sha256:"` split pattern. -/
def shaPat : List Char := "@sha256:".data

/-- Classification of one resolved `FROM` reference (`find_docker_digests`, body of the
`FROM` loop): split on the first `@sha256:` when present, then split the base on the last
`:` (default tag `latest`); otherwise the reference is unpinned. -/
def scanDockerRef (resolved raw : String) : DockerRec :=
  match findSub shaPat resolved.data with
  | some (base, rest) =>
    let digest := "sha256:" ++ String.mk rest
    match rsplitChar ':' base with
    | some (img, tg) => ⟨String.mk img, String.mk tg, some digest, .docker_digest, raw⟩
    | none => ⟨String.mk base, "latest", some digest, .docker_digest, raw⟩
  | none =>
    match rsplitChar ':' resolved.data with
    | some (img, tg) => ⟨String.mk img, String.mk tg, none, .docker_unpinned, raw⟩
    | none => ⟨resolved, "latest", none, .docker_unpinned, raw⟩

/-- The `type` field of an Action record.  `action_no_tag` exists because `main` tests
for it, although `find_action_pins` never emits it. -/
inductive ActionKind
  | action_pinned
  | action_unpinned
  | action_no_tag
  deriving DecidableEq

/-- A GitHub Action pin record as built by `find_action_pins`. -/
structure ActionRec where
  action : String
  sha : Option String
  tag : Option String
  kind : ActionKind
  raw : String
  deriving DecidableEq

/-- One character of `[0-9a-f]`. -/
def isHexLower (c : Char) : Bool := c.isDigit || ('a' ≤ c && c ≤ 'f')

/-- `re.match` of forty lowercase-hex characters against the whole ref. -/
def isHex40 (r : String) : Bool := r.data.length == 40 && r.data.all isHexLower

/-- First match of the display-tag comment regex `#` + whitespace + a `v`-led
non-whitespace token on a line; scanning resumes after a `#` whose tail does not match. -/
def tagCommentOf : List Char → Option String
  | [] => none
  | c :: cs =>
    if c = '#' then
      match cs.dropWhile isPySpace with
      | 'v' :: d :: rest =>
        if isPySpace d then tagCommentOf cs
        else some (String.mk ('v' :: d :: rest.takeWhile (fun x => !isPySpace x)))
      | _ => tagCommentOf cs
    else tagCommentOf cs

/-- Anchored match of the workflow reference regex on one line: optional indentation,
an optional `-` item marker, the literal `uses:`, at least one space, then
`action@ref` where the action part has no whitespace or `@` and the ref part has no
whitespace. -/
def matchUses (line : List Char) : Option (String × String) :=
  let s1 := line.dropWhile isPySpace
  let s2 := match s1 with
    | '-' :: t => t.dropWhile isPySpace
    | _ => s1
  if isPrefixL "uses:".data s2 then
    let s3 := s2.drop 5
    let s4 := s3.dropWhile isPySpace
    if s4.length < s3.length then
      let act := s4.takeWhile (fun c => !isPySpace c && c ≠ '@')
      if act.isEmpty then none
      else
        match s4.drop act.length with
        | '@' :: rest =>
          let ref := rest.takeWhile (fun c => !isPySpace c)
          if ref.isEmpty then none else some (String.mk act, String.mk ref)
        | _ => none
    else none
  else none

/-- Classification of one matched `uses:` reference (`find_action_pins` loop body):
local actions are skipped; a 40-hex ref is `action_pinned` with the display-tag comment
as `tag`; anything else is `action_unpinned` with the ref itself stored in `tag`. -/
def scanActionRef (action ref : String) (cmt : Option String) : Option ActionRec :=
  if isPrefixL "./".data action.data then none
  else if isHex40 ref then
    some ⟨action, some ref, cmt, .action_pinned, action ++ "@" ++ ref⟩
  else
    some ⟨action, none, some ref, .action_unpinned, action ++ "@" ++ ref⟩

/-- Scan of a single workflow line: regex match plus display-tag comment extraction. -/
def scanUsesLine (line : String) : Option ActionRec :=
  match matchUses line.data with
  | none => none
  | some (action, ref) => scanActionRef action ref (tagCommentOf line.data)

/-! ## Report builder (`check_pinned_deps.py`, `main`) -/

/-- Python string interpolation of an optional value: `None` renders as `"None"`. -/
def pyStr : Option String → String
  | none => "None"
  | some s => s

/-- Split on `/` (Python `str.split("/")`). -/
def splitSlash : List Char → List (List Char)
  | [] => [[]]
  | c :: cs =>
    let r := splitSlash cs
    if c = '/' then [] :: r
    else
      match r with
      | h :: t => (c :: h) :: t
      | [] => [[c]]

/-- The owner/repo truncation in `check_action_update`: keep only the first two
path segments when more than two are present. -/
def ownerRepo (action : String) : String :=
  match splitSlash action.data with
  | a :: b :: _ :: _ => String.mk (a ++ '/' :: b)
  | _ => action

/-- The three Docker report categories of `main` (entries carry their source record). -/
structure DockerReport where
  updates : List DockerRec
  warnings : List DockerRec
  upToDate : List DockerRec
  deriving DecidableEq

/-- The Docker half of `main`'s classification loop with the registry lookup
(`check_docker_update`, i.e. `crane digest`) abstracted as the oracle `fd`:
failed lookup → warning; unpinned → update; different digest → update; else up-to-date. -/
def processDocker (fd : String → String → Option String) : List DockerRec → DockerReport
  | [] => ⟨[], [], []⟩
  | d :: ds =>
    let o := processDocker fd ds
    match fd d.image d.tag with
    | none => ⟨o.updates, d :: o.warnings, o.upToDate⟩
    | some latest =>
      match d.kind with
      | .docker_unpinned => ⟨d :: o.updates, o.warnings, o.upToDate⟩
      | .docker_digest =>
        if some latest ≠ d.digest then ⟨d :: o.updates, o.warnings, o.upToDate⟩
        else ⟨o.updates, o.warnings, d :: o.upToDate⟩

/-- The three Action report categories of `main`, plus the trace of commits-API lookups
actually performed (owner/repo, ref). -/
structure ActionReport where
  updates : List ActionRec
  warnings : List ActionRec
  upToDate : List ActionRec
  queries : List (String × String)
  deriving DecidableEq

/-- The Action half of `main`'s loop; `check_action_update` (the
`gh api repos/<owner-repo>/commits/<ref>` call) is abstracted as the oracle `fa`, and
every lookup performed is recorded in `queries`.  `tag_or_ref` is the record's `tag`
field rendered the way a Python f-string renders it, so an absent tag becomes the
literal ref `"None"`.  Records typed `action_no_tag` are warned without a lookup. -/
def processActions (fa : String → String → Option String) : List ActionRec → ActionReport
  | [] => ⟨[], [], [], []⟩
  | d :: ds =>
    let o := processActions fa ds
    match d.kind with
    | .action_no_tag => ⟨o.updates, d :: o.warnings, o.upToDate, o.queries⟩
    | k =>
      let ref := pyStr d.tag
      let q := (ownerRepo d.action, ref)
      match fa (ownerRepo d.action) ref with
      | none => ⟨o.updates, d :: o.warnings, o.upToDate, q :: o.queries⟩
      | some latest =>
        match k with
        | .action_unpinned => ⟨d :: o.updates, o.warnings, o.upToDate, q :: o.queries⟩
        | _ =>
          if some latest ≠ d.sha then ⟨d :: o.updates, o.warnings, o.upToDate, q :: o.queries⟩
          else ⟨o.updates, o.warnings, d :: o.upToDate, q :: o.queries⟩

/-! ## Update applier (`create_update_pr.py`) -/

/-- One entry of a report's `updates` list, with the fields the applier reads. -/
inductive Update
  | dockerDigest (file currentDigest latestDigest rawRef : String)
  | dockerUnpinned (file rawRef latestDigest : String)
  | actionPinned (file currentSha latestSha rawRef : String)
  | actionUnpinned (file action latestSha tag rawRef : String)
  | variantUpdate (file currentVersion latestVersion rawRef : String)
  deriving DecidableEq

/-- The `file` field. -/
def Update.file : Update → String
  | .dockerDigest f _ _ _ => f
  | .dockerUnpinned f _ _ => f
  | .actionPinned f _ _ _ => f
  | .actionUnpinned f _ _ _ _ => f
  | .variantUpdate f _ _ _ => f

/-- The `raw_ref` field. -/
def Update.rawRef : Update → String
  | .dockerDigest _ _ _ r => r
  | .dockerUnpinned _ r _ => r
  | .actionPinned _ _ _ r => r
  | .actionUnpinned _ _ _ _ r => r
  | .variantUpdate _ _ _ r => r

/-- A tag standing for the `type` string, used in the dedup key `(type, raw_ref)`. -/
def Update.kindIdx : Update → Nat
  | .dockerDigest _ _ _ _ => 0
  | .dockerUnpinned _ _ _ => 1
  | .actionPinned _ _ _ _ => 2
  | .actionUnpinned _ _ _ _ _ => 3
  | .variantUpdate _ _ _ _ => 4

/-- Worker for `replaceL`; the fuel argument starts at the input length and bounds the
number of steps, so the recursion is structural (a nonempty occurrence consumes at least
one character per step, so fuel never runs out before the input does). -/
def replaceGo (pat new : List Char) : Nat → List Char → List Char
  | _, [] => []
  | 0, s => s
  | fuel + 1, c :: cs =>
    if pat.isEmpty = false && isPrefixL pat (c :: cs) then
      new ++ replaceGo pat new fuel (cs.drop (pat.length - 1))
    else
      c :: replaceGo pat new fuel cs

/-- Python `str.replace`: replace every non-overlapping occurrence, left to right. -/
def replaceL (pat new s : List Char) : List Char := replaceGo pat new s.length s

/-- One update's literal substitution on a file's content
(the per-kind `content.replace` dispatch in `create_update_pr.main`). -/
def applyOne (u : Update) (content : List Char) : List Char :=
  match u with
  | .dockerDigest _ cur lat _ => replaceL cur.data lat.data content
  | .dockerUnpinned _ raw lat => replaceL raw.data (raw ++ "@" ++ lat).data content
  | .actionPinned _ cur lat _ => replaceL cur.data lat.data content
  | .actionUnpinned _ act lat tg raw =>
    replaceL raw.data (act ++ "@" ++ lat ++ " # " ++ tg).data content
  | .variantUpdate _ cur lat _ => replaceL cur.data lat.data content

/-- The per-file update loop with the `seen_refs` dedup set keyed on `(type, raw_ref)`. -/
def applySeen (seen : List (Nat × String)) : List Update → List Char → List Char
  | [], content => content
  | u :: us, content =>
    let key := (u.kindIdx, u.rawRef)
    if key ∈ seen then applySeen seen us content
    else applySeen (key :: seen) us (applyOne u content)

/-- The keys of `files_to_update` in first-occurrence order (Python dicts preserve
insertion order). -/
def fileKeys : List Update → List String
  | [] => []
  | u :: us => u.file :: (fileKeys us).filter (fun k => k ≠ u.file)

/-- Association-list lookup standing for reading a file from the working tree
(`none` models `FileNotFoundError`). -/
def lookupFs (fs : List (String × String)) (f : String) : Option String :=
  match fs with
  | [] => none
  | (k, v) :: rest => if k = f then some v else lookupFs rest f

/-- Overwrite a file's content in the working tree. -/
def setFs (fs : List (String × String)) (f : String) (v : String) : List (String × String) :=
  match fs with
  | [] => []
  | (k, w) :: rest => if k = f then (k, v) :: rest else (k, w) :: setFs rest f v

/-- The applier's per-file loop: read, substitute, write and stage each target file,
skipping files that do not exist.  Returns the final tree and whether any staged file
differs from its base content (the `git diff --cached --quiet` test against `HEAD`). -/
def applyFiles (us : List Update) : List String → List (String × String) →
    List (String × String) × Bool
  | [], fs => (fs, false)
  | k :: ks, fs =>
    match lookupFs fs k with
    | none => applyFiles us ks fs
    | some content =>
      let newC := String.mk (applySeen [] (us.filter (fun u => u.file == k)) content.data)
      let r := applyFiles us ks (setFs fs k newC)
      (r.1, r.2 || decide (newC ≠ content))

/-- Observable outcome of one applier run. -/
structure ApplyResult where
  files : List (String × String)
  committed : Bool
  prCreated : Bool
  exitCode : Nat
  deriving DecidableEq

/-- Control flow of `create_update_pr.main` on a checkout of the base branch:
an empty update list exits 0 immediately; otherwise the branch is reset to the base,
updates are applied per file, an empty staged diff returns without committing, and
otherwise a commit is created and force-pushed and a pull request is opened only when
`gh pr list` reports no open PR for the fixed branch (`prOpen`).  The git/gh calls
themselves are assumed to succeed. -/
def createUpdatePR (updates : List Update) (base : List (String × String)) (prOpen : Bool) :
    ApplyResult :=
  if updates.isEmpty then ⟨base, false, false, 0⟩
  else
    let r := applyFiles updates (fileKeys updates) base
    if r.2 = false then ⟨r.1, false, false, 0⟩
    else ⟨r.1, true, !prOpen, 0⟩

/-! ## Scan-result checker (`check_scan_results.py`) -/

/-- One vulnerability entry of a Trivy result. -/
structure Vuln where
  vulnId : Option String
  pkgName : String
  title : String
  deriving DecidableEq

/-- One secret entry of a Trivy result. -/
structure SecretRec where
  ruleId : Option String
  title : String
  deriving DecidableEq

/-- One element of the Trivy `Results` array. -/
structure ScanResult where
  target : String
  vulns : List Vuln
  secrets : List SecretRec
  deriving DecidableEq

/-- Python `str.strip()` on ASCII whitespace. -/
def stripPy (s : List Char) : List Char :=
  ((s.dropWhile isPySpace).reverse.dropWhile isPySpace).reverse

/-- `load_trivy_ignores` on the file's lines: strip `#` comments, strip whitespace,
skip blanks.  The Python `set` is modelled as a list used only through membership. -/
def loadIgnores (lines : List String) : List String :=
  lines.foldr (fun line acc =>
    let noCmt := match findSub ['#'] line.data with
      | some (pre, _) => pre
      | none => line.data
    let t := stripPy noCmt
    if t.isEmpty then acc else String.mk t :: acc) []

/-- Scan forward to the closing `]` of a glob character class. -/
def findClose : List Char → Option (List Char × List Char)
  | [] => none
  | ']' :: rest => some ([], rest)
  | c :: cs =>
    match findClose cs with
    | some (body, rest) => some (c :: body, rest)
    | none => none

/-- Parse a glob character class after `[` the way `fnmatch.translate` does:
an optional leading `!` negates, a `]` right after that is a literal member, and the
class runs to the next `]`; `none` means no closing bracket, so `[` is literal. -/
def parseClass (cs : List Char) : Option (Bool × List Char × List Char) :=
  match cs with
  | '!' :: ']' :: rest => (findClose rest).map (fun p => (true, ']' :: p.1, p.2))
  | '!' :: rest => (findClose rest).map (fun p => (true, p.1, p.2))
  | ']' :: rest => (findClose rest).map (fun p => (false, ']' :: p.1, p.2))
  | rest => (findClose rest).map (fun p => (false, p.1, p.2))

/-- Membership of a character in a class body, with `a-b` ranges and a literal `-`
at either end. -/
def inClass : List Char → Char → Bool
  | [], _ => false
  | a :: '-' :: b :: rest, c => (a ≤ c && c ≤ b) || inClass rest c
  | a :: rest, c => c = a || inClass rest c

/-- Glob matching as `fnmatch.fnmatch` performs it on POSIX (case-sensitive):
`*` matches any sequence, `?` any single character, `[...]`/`[!...]` classes,
anything else literally. -/
def globMatch : List Char → List Char → Bool
  | [], [] => true
  | [], _ :: _ => false
  | '*' :: ps, s =>
    globMatch ps s ||
      (match s with
       | [] => false
       | _ :: s2 => globMatch ('*' :: ps) s2)
  | '?' :: _, [] => false
  | '?' :: ps, _ :: s2 => globMatch ps s2
  | '[' :: ps, s =>
    (match parseClass ps with
     | none =>
       (match s with
        | '[' :: s2 => globMatch ps s2
        | _ => false)
     | some (neg, body, rest) =>
       (match s with
        | [] => false
        | c :: s2 => (inClass body c != neg) && globMatch rest s2))
  | _ :: _, [] => false
  | p :: ps, c :: s2 => p = c && globMatch ps s2
termination_by p s => (s.length, p.length)
decreasing_by
  all_goals simp_wf
  all_goals first
    | (apply Prod.Lex.right; omega)
    | (apply Prod.Lex.left; omega)

/-- Python truthiness of an optional string (`None` and `""` are falsy). -/
def pyTruthy : Option String → Bool
  | none => false
  | some s => !s.isEmpty

/-- The underlying string of an optional id (used only under `pyTruthy`). -/
def optStr (o : Option String) : String := o.getD ""

/-- The vulnerability-id patterns that the secret glob fallback skips. -/
def isVulnPat (p : String) : Bool :=
  isPrefixL "CVE-".data p.data || isPrefixL "GHSA-".data p.data ||
    isPrefixL "RUSTSEC-".data p.data

/-- `os.path.basename`: the part after the last `/`. -/
def basenameOf (s : String) : String :=
  match rsplitChar '/' s.data with
  | some (_, suf) => String.mk suf
  | none => s

/-- The glob fallback for a secret finding: the first ignore pattern that is not a
vulnerability id and fnmatches the target path or its basename. -/
def secretGlobIgnore (igs : List String) (file : String) : Option String :=
  igs.find? (fun p => !isVulnPat p &&
    (globMatch p.data file.data || globMatch p.data (basenameOf file).data))

/-- The vulnerability loop of `check_scan_results.main`: a falsy id is skipped entirely;
an ignored id is recorded as used; otherwise a finding is emitted.
Returns (findings, used ignores) in scan order. -/
def processVulns (igs : List String) : List Vuln → List String × List String
  | [] => ([], [])
  | v :: vs =>
    let r := processVulns igs vs
    if pyTruthy v.vulnId then
      if optStr v.vulnId ∈ igs then (r.1, optStr v.vulnId :: r.2)
      else (("[VULN] " ++ optStr v.vulnId) :: r.1, r.2)
    else r

/-- The secret loop of `check_scan_results.main`: a truthy rule id found in the ignore
set is used; otherwise the glob fallback may ignore by target path; otherwise a finding
is emitted. -/
def processSecrets (igs : List String) (target : String) :
    List SecretRec → List String × List String
  | [] => ([], [])
  | s :: ss =>
    let r := processSecrets igs target ss
    if pyTruthy s.ruleId && decide (optStr s.ruleId ∈ igs) then
      (r.1, optStr s.ruleId :: r.2)
    else
      match secretGlobIgnore igs target with
      | some p => (r.1, p :: r.2)
      | none => (("[SECRET] " ++ optStr s.ruleId ++ " in " ++ target) :: r.1, r.2)

/-- All findings and used ignores over the `Results` array. -/
def processResults (igs : List String) : List ScanResult → List String × List String
  | [] => ([], [])
  | r :: rs =>
    let v := processVulns igs r.vulns
    let s := processSecrets igs r.target r.secrets
    let t := processResults igs rs
    (v.1 ++ s.1 ++ t.1, v.2 ++ s.2 ++ t.2)

/-- Control flow of `check_scan_results.main` on parsed inputs: the findings list, the
stale-ignore list (ignores never used), and the exit code, which is 1 exactly when an
un-ignored finding exists.  Stale ignores are only printed (and optionally posted to a
webhook); they do not influence the exit code. -/
def checkScan (ignoreLines : List String) (results : List ScanResult) :
    List String × List String × Nat :=
  let igs := loadIgnores ignoreLines
  let fu := processResults igs results
  let stale := igs.filter (fun i => !fu.2.contains i)
  (fu.1, stale, if fu.1.isEmpty then 0 else 1)

/-! ## Claim theorems -/

theorem processDocker_count (fd : String → String → Option String) :
    ∀ ds : List DockerRec,
      (processDocker fd ds).updates.length + (processDocker fd ds).warnings.length
        + (processDocker fd ds).upToDate.length = ds.length
  | [] => rfl
  | d :: ds => by
    have ih := processDocker_count fd ds
    cases hfd : fd d.image d.tag with
    | none => simp only [processDocker, hfd, List.length_cons]; omega
    | some latest =>
      cases hk : d.kind with
      | docker_unpinned => simp only [processDocker, hfd, hk, List.length_cons]; omega
      | docker_digest =>
        rcases eq_or_ne (some latest) d.digest with hd | hd
        · simp only [processDocker, hfd, hk, if_neg (not_ne_iff.mpr hd), List.length_cons]
          omega
        · simp only [processDocker, hfd, hk, if_pos hd, List.length_cons]
          omega

theorem processActions_count (fa : String → String → Option String) :
    ∀ ds : List ActionRec,
      (processActions fa ds).updates.length + (processActions fa ds).warnings.length
        + (processActions fa ds).upToDate.length = ds.length
  | [] => rfl
  | d :: ds => by
    have ih := processActions_count fa ds
    cases hk : d.kind with
    | action_no_tag => simp only [processActions, hk, List.length_cons]; omega
    | action_unpinned =>
      cases hfa : fa (ownerRepo d.action) (pyStr d.tag) with
      | none => simp only [processActions, hk, hfa, List.length_cons]; omega
      | some latest => simp only [processActions, hk, hfa, List.length_cons]; omega
    | action_pinned =>
      cases hfa : fa (ownerRepo d.action) (pyStr d.tag) with
      | none => simp only [processActions, hk, hfa, List.length_cons]; omega
      | some latest =>
        rcases eq_or_ne (some latest) d.sha with hd | hd
        · simp only [processActions, hk, hfa, if_neg (not_ne_iff.mpr hd), List.length_cons]
          omega
        · simp only [processActions, hk, hfa, if_pos hd, List.length_cons]
          omega

/-- C2: for every list of scanned records (Docker and Action alike) and every behaviour
of the external resolution oracles, each record is appended to exactly one of the three
report categories, so the total number of report entries equals the number of scanned
records. -/
theorem report_partition_total
    (fd fa : String → String → Option String)
    (ddeps : List DockerRec) (adeps : List ActionRec) :
    ((processDocker fd ddeps).updates.length + (processDocker fd ddeps).warnings.length
      + (processDocker fd ddeps).upToDate.length)
    + ((processActions fa adeps).updates.length + (processActions fa adeps).warnings.length
      + (processActions fa adeps).upToDate.length)
    = ddeps.length + adeps.length := by
  rw [processDocker_count fd ddeps, processActions_count fa adeps]

/-- C10: the scanner's pinning policy is total and two-valued per kind: a resolved
`FROM` reference is `docker_unpinned` exactly when it carries no `@sha256:` digest
(`:latest` tags included), and `docker_digest` otherwise; a non-local `uses:` reference
is `action_pinned` exactly when its ref is forty lowercase-hex characters and
`action_unpinned` otherwise (`main`/`master` included); so every matched reference
receives exactly one of the four kinds. -/
theorem classification_total :
    (∀ resolved raw : String,
      ((scanDockerRef resolved raw).kind = DockerKind.docker_unpinned ↔
        findSub shaPat resolved.data = none) ∧
      ((scanDockerRef resolved raw).kind = DockerKind.docker_digest ↔
        (findSub shaPat resolved.data).isSome = true)) ∧
    (∀ (action ref : String) (cmt : Option String),
      isPrefixL "./".data action.data = false →
      ∃ r, scanActionRef action ref cmt = some r ∧
        (r.kind = ActionKind.action_pinned ↔ isHex40 ref = true) ∧
        (r.kind = ActionKind.action_unpinned ↔ isHex40 ref = false)) := by
  constructor
  · intro resolved raw
    simp only [scanDockerRef]
    cases h : findSub shaPat resolved.data with
    | none =>
      cases h2 : rsplitChar ':' resolved.data with
      | none => simp
      | some p => simp
    | some p =>
      obtain ⟨base, rest⟩ := p
      cases h2 : rsplitChar ':' base with
      | none => simp [h2]
      | some q => obtain ⟨i, t⟩ := q; simp [h2]
  · intro action ref cmt hloc
    simp only [scanActionRef, hloc, Bool.false_eq_true, if_false]
    cases h : isHex40 ref with
    | true => exact ⟨_, rfl, by simp⟩
    | false => exact ⟨_, rfl, by simp⟩

/-- C10 witness: a digest-less `:latest` reference is `docker_unpinned`, and a non-local
action pinned to the ref `main` is `action_unpinned`. -/
theorem classification_total_witness :
    (scanDockerRef "ubuntu:latest" "ubuntu:latest").kind = DockerKind.docker_unpinned ∧
    ∃ r, scanActionRef "actions/checkout" "main" none = some r ∧
      r.kind = ActionKind.action_unpinned := by
  constructor
  · exact ((classification_total.1 "ubuntu:latest" "ubuntu:latest").1).mpr (by decide)
  · obtain ⟨r, h1, _, h3⟩ :=
      classification_total.2 "actions/checkout" "main" none (by decide)
    exact ⟨r, h1, h3.mpr (by decide)⟩

theorem processActions_queries (fa : String → String → Option String) :
    ∀ deps : List ActionRec, (∀ d ∈ deps, d.kind ≠ ActionKind.action_no_tag) →
      (processActions fa deps).queries =
        deps.map (fun d => (ownerRepo d.action, pyStr d.tag))
  | [], _ => rfl
  | d :: ds, h => by
    have hd := h d (List.mem_cons_self d ds)
    have ihq := processActions_queries fa ds
      (fun x hx => h x (List.mem_cons_of_mem d hx))
    cases hk : d.kind with
    | action_no_tag => exact absurd hk hd
    | action_unpinned =>
      cases hfa : fa (ownerRepo d.action) (pyStr d.tag) with
      | none => simp [processActions, hk, hfa, ihq]
      | some latest => simp [processActions, hk, hfa, ihq]
    | action_pinned =>
      cases hfa : fa (ownerRepo d.action) (pyStr d.tag) with
      | none => simp [processActions, hk, hfa, ihq]
      | some latest =>
        rcases eq_or_ne (some latest) d.sha with hd2 | hd2
        · simp [processActions, hk, hfa, if_neg (not_ne_iff.mpr hd2), ihq]
        · simp [processActions, hk, hfa, if_pos hd2, ihq]

/-- C9: for every resolution oracle and every scanner-produced action record list (the
scanner never emits `action_no_tag`), `main` performs exactly one commits-API lookup per
record, always under the record's `tag` field rendered the way a Python f-string renders
it — the display-tag comment for SHA-pinned records, never the pinned 40-hex SHA, which
does not occur in the query at all — so a pinned record whose display tag is absent is
queried under the literal ref "None", and the resolved value is whatever the oracle
returns for the tag named in the comment. -/
theorem action_resolution_uses_tag
    (fa : String → String → Option String) (deps : List ActionRec)
    (h : ∀ d ∈ deps, d.kind ≠ ActionKind.action_no_tag) :
    (processActions fa deps).queries =
      deps.map (fun d => (ownerRepo d.action, pyStr d.tag)) ∧
    pyStr none = "None" :=
  ⟨processActions_queries fa deps h, rfl⟩

/-- A forty-character lowercase-hex pin used in the concrete scenarios. -/
def shaA : String := String.mk (List.replicate 40 'a')

/-- A different forty-character lowercase-hex value. -/
def shaB : String := String.mk (List.replicate 40 'b')

/-- C9 witness: a pinned record with display tag `v4.2.2` and a pinned record without
one are queried under `v4.2.2` and the literal ref `None` respectively. -/
theorem action_resolution_uses_tag_witness :
    (processActions (fun _ _ => none)
      [⟨"actions/checkout", some shaA, some "v4.2.2", ActionKind.action_pinned,
         "actions/checkout@" ++ shaA⟩,
       ⟨"octo/act", some shaA, none, ActionKind.action_pinned, "octo/act@" ++ shaA⟩]).queries
      = [("actions/checkout", "v4.2.2"), ("octo/act", "None")] := by
  have h := (action_resolution_uses_tag (fun _ _ => none)
    [⟨"actions/checkout", some shaA, some "v4.2.2", ActionKind.action_pinned,
       "actions/checkout@" ++ shaA⟩,
     ⟨"octo/act", some shaA, none, ActionKind.action_pinned, "octo/act@" ++ shaA⟩]
    (by decide)).1
  rw [h]
  decide

/-- C1 (code bug): `find_action_pins` classifies a SHA-pinned `uses:` line without a
trailing tag comment as `action_pinned` with `tag = None` — it never emits the
`action_no_tag` type that `main`'s "SHA-pinned action without tag comment" warning
branch tests for, so that branch is dead code.  `main` therefore performs a resolution
lookup for such a record, under the literal ref "None", and classifies the record by
the lookup's outcome: with an oracle that resolves ref "None" to a different commit,
the record lands in `updates` — not in `warnings` — contradicting the claim that it is
always warned and never resolved. -/
theorem pinned_without_tag_is_resolved :
    scanUsesLine ("- uses: actions/checkout@" ++ shaA) =
      some ⟨"actions/checkout", some shaA, none, ActionKind.action_pinned,
        "actions/checkout@" ++ shaA⟩ ∧
    (processActions (fun _ r => if r = "None" then some shaB else none)
        [⟨"actions/checkout", some shaA, none, ActionKind.action_pinned,
          "actions/checkout@" ++ shaA⟩]).updates =
      [⟨"actions/checkout", some shaA, none, ActionKind.action_pinned,
        "actions/checkout@" ++ shaA⟩] ∧
    (processActions (fun _ r => if r = "None" then some shaB else none)
        [⟨"actions/checkout", some shaA, none, ActionKind.action_pinned,
          "actions/checkout@" ++ shaA⟩]).warnings = [] ∧
    (processActions (fun _ r => if r = "None" then some shaB else none)
        [⟨"actions/checkout", some shaA, none, ActionKind.action_pinned,
          "actions/checkout@" ++ shaA⟩]).queries = [("actions/checkout", "None")] :=
  ⟨by decide, by decide, by decide, by decide⟩

/-- C3 (counterexample): the zero-padded triples of "2.0" and "2.0.0" are equal, so
under the claimed triple comparison the two versions compare equal; but the implemented
comparison (`Version.__lt__`/`__eq__` on the full `parts` lists) makes "2.0" strictly
less than "2.0.0" and not equal to it. -/
theorem version_triple_counterexample :
    vtriple "2.0" = vtriple "2.0.0" ∧ versionLt "2.0" "2.0.0" = true ∧
      versionEq "2.0" "2.0.0" = false := by decide

/-- C3 (amended): version comparison extracts maximal digit runs and compares the full
extracted lists lexicographically — a strict prefix compares less, with no zero-padding
to a triple.  The comparison is asymmetric, connected and transitive, i.e. a total order
on the extracted part lists; "1.2.3" compares less than "1.3.0"; and "2.0" compares
strictly less than "2.0.0" rather than equal. -/
theorem version_order_amended :
    (∀ a b : String, versionLt a b = true → versionLt b a = false) ∧
    (∀ a b : String, versionLt a b = false → versionLt b a = false → vparts a = vparts b) ∧
    (∀ a b c : String, versionLt a b = true → versionLt b c = true → versionLt a c = true) ∧
    versionLt "1.2.3" "1.3.0" = true ∧ versionLt "2.0" "2.0.0" = true :=
  ⟨fun _ _ h => partsLt_asymm _ _ h,
   fun _ _ h1 h2 => partsLt_conn _ _ h1 h2,
   fun _ _ _ h1 h2 => partsLt_trans _ _ _ h1 h2,
   by decide, by decide⟩

/-- C3 witness: transitivity of the implemented comparison at concrete versions. -/
theorem version_order_amended_witness : versionLt "1.2.3" "2.0.0" = true :=
  version_order_amended.2.2.1 "1.2.3" "1.3.0" "2.0.0" (by decide) (by decide)

/-- C8: the scan-result checker exits non-zero exactly when at least one un-ignored
finding exists; with an empty findings list the exit code is 0 regardless of how many
stale ignore entries remain. -/
theorem scan_checker_exit (ignoreLines : List String) (results : List ScanResult) :
    ((checkScan ignoreLines results).2.2 ≠ 0 ↔ (checkScan ignoreLines results).1 ≠ []) ∧
    ((checkScan ignoreLines results).1 = [] → (checkScan ignoreLines results).2.2 = 0) := by
  cases h : (processResults (loadIgnores ignoreLines) results).1 with
  | nil => simp [checkScan, h]
  | cons a l => simp [checkScan, h]

/-- C8 witness: a stale ignore with no findings exits 0 while still being reported
stale; one un-ignored vulnerability finding exits 1. -/
theorem scan_checker_exit_witness :
    (checkScan ["CVE-1 # stale"] []).2.2 = 0 ∧
    (checkScan ["CVE-1 # stale"] []).2.1 = ["CVE-1"] ∧
    (checkScan [] [⟨"t", [⟨some "CVE-2", "pkg", "title"⟩], []⟩]).2.2 = 1 :=
  ⟨(scan_checker_exit ["CVE-1 # stale"] []).2 (by decide), by decide, by decide⟩

/-- A 64-character hex digest body used in the concrete scenarios. -/
def shaA64 : String := String.mk (List.replicate 64 'a')

/-- C6 (counterexample): for the resolved reference `ubuntu@sha256:<64 hex>` — no `:`
before the `@` — the scanner classifies a digest pin and defaults the tag to `latest`,
so the reconstruction `image ++ ":" ++ tag ++ "@" ++ digest` is
`ubuntu:latest@sha256:...`, which is not textually equal to the resolved reference. -/
theorem docker_roundtrip_counterexample :
    (scanDockerRef ("ubuntu@sha256:" ++ shaA64) ("ubuntu@sha256:" ++ shaA64)).digest
        = some ("sha256:" ++ shaA64) ∧
    (scanDockerRef ("ubuntu@sha256:" ++ shaA64) ("ubuntu@sha256:" ++ shaA64)).image ++ ":"
        ++ (scanDockerRef ("ubuntu@sha256:" ++ shaA64) ("ubuntu@sha256:" ++ shaA64)).tag
        ++ "@"
        ++ pyStr (scanDockerRef ("ubuntu@sha256:" ++ shaA64) ("ubuntu@sha256:" ++ shaA64)).digest
      ≠ "ubuntu@sha256:" ++ shaA64 := by
  constructor
  · decide
  · decide

/-- C6 (amended): for every resolved `FROM` reference containing `@sha256:`, split at
the first occurrence into `pre` and `suf`: the recovered digest is `sha256:` ++ `suf`,
and the reconstruction `image ++ ":" ++ tag ++ "@" ++ digest` is textually equal to the
resolved reference exactly when `pre` contains a `:`; when it does not, the tag defaults
to `latest` and the reconstruction equals the resolved reference with `:latest` inserted
before the `@`. -/
theorem docker_digest_roundtrip (resolved raw : String) (pre suf : List Char)
    (h : findSub shaPat resolved.data = some (pre, suf)) :
    (scanDockerRef resolved raw).digest = some ("sha256:" ++ String.mk suf) ∧
    (':' ∈ pre →
      (scanDockerRef resolved raw).image ++ ":" ++ (scanDockerRef resolved raw).tag
        ++ "@" ++ pyStr (scanDockerRef resolved raw).digest = resolved) ∧
    (':' ∉ pre →
      (scanDockerRef resolved raw).tag = "latest" ∧
      (scanDockerRef resolved raw).image ++ ":" ++ (scanDockerRef resolved raw).tag
          ++ "@" ++ pyStr (scanDockerRef resolved raw).digest
        = String.mk pre ++ ":latest@sha256:" ++ String.mk suf ∧
      resolved = String.mk pre ++ "@sha256:" ++ String.mk suf) := by
  have hres := findSub_eq shaPat resolved.data pre suf h
  cases hsp : rsplitChar ':' pre with
  | some p =>
    obtain ⟨img, tg⟩ := p
    have hpre := rsplitChar_eq ':' pre img tg hsp
    have hmem : ':' ∈ pre := by rw [hpre]; simp
    simp only [scanDockerRef, h, hsp]
    refine ⟨by trivial, fun _ => ?_, fun hn => absurd hmem hn⟩
    apply String.ext
    simp only [String.data_append, pyStr]
    rw [hres, hpre]
    simp [shaPat]
  | none =>
    have hmem := rsplitChar_none ':' pre hsp
    simp only [scanDockerRef, h, hsp]
    refine ⟨by trivial, fun hc => absurd hc hmem, fun _ => ⟨by trivial, ?_, ?_⟩⟩
    · apply String.ext
      simp only [String.data_append, pyStr]
      simp [shaPat]
    · apply String.ext
      simp only [String.data_append]
      rw [hres]
      simp [shaPat]

/-- C6 witness: for `python:3.11@sha256:<64 hex>` the reconstruction is textually equal
to the resolved reference. -/
theorem docker_digest_roundtrip_witness :
    (scanDockerRef ("python:3.11@sha256:" ++ shaA64) "r").image ++ ":"
      ++ (scanDockerRef ("python:3.11@sha256:" ++ shaA64) "r").tag ++ "@"
      ++ pyStr (scanDockerRef ("python:3.11@sha256:" ++ shaA64) "r").digest
      = "python:3.11@sha256:" ++ shaA64 :=
  (docker_digest_roundtrip ("python:3.11@sha256:" ++ shaA64) "r" "python:3.11".data
    shaA64.data (by decide)).2.1 (by decide)

theorem partsLt_nil : ∀ curr : List Nat, partsLt curr [] = false
  | [] => rfl
  | _ :: _ => rfl

theorem candidatesOf_mem (curr : List Nat) (strict : Bool) (tmpl : Option (String × String))
    (avail : List String) (c : String) :
    c ∈ candidatesOf curr strict tmpl avail ↔
      ∃ v ∈ avail, cleanOf tmpl v = some c ∧ hasAlpha c = false ∧
        partsLt curr (vparts c) = true ∧ (vparts c).getD 0 0 = curr.getD 0 0 ∧
        (strict = true → (vparts c).getD 1 0 = curr.getD 1 0) := by
  simp only [candidatesOf, List.mem_filterMap]
  constructor
  · rintro ⟨v, hv, hf⟩
    refine ⟨v, hv, ?_⟩
    cases hc : cleanOf tmpl v with
    | none => rw [hc] at hf; simp at hf
    | some cleanV =>
      rw [hc] at hf
      simp only at hf
      split_ifs at hf with h1 h2 h3 h4 h5
      simp only [Option.some.injEq] at hf
      subst hf
      refine ⟨rfl, by simpa using h1, h3, by simpa using h4, ?_⟩
      intro hs
      subst hs
      simpa using h5
  · rintro ⟨v, hv, hclean, halpha, hgt, hmaj, hmin⟩
    refine ⟨v, hv, ?_⟩
    rw [hclean]
    simp only
    have hne : (vparts c).isEmpty = false := by
      cases hp : vparts c with
      | nil => rw [hp] at hgt; rw [partsLt_nil] at hgt; exact absurd hgt (by simp)
      | cons a l => simp
    rw [if_neg (by simp [halpha]), if_neg (by simp [hne]), if_pos hgt,
      if_neg (not_ne_iff.mpr hmaj), if_neg (by
        intro hcontra
        rw [Bool.and_eq_true] at hcontra
        exact absurd (hmin hcontra.1) (bne_iff_ne.mp hcontra.2))]

/-- C4: with the strict-minor flag computed as `main` computes it (more than one
distinct tracked minor for the entry's major), `check_version_update` returns `None`
exactly when no candidate qualifies; a string qualifies exactly when it is the cleaned
form of an upstream version, contains no ASCII letter, is strictly greater than the
current version under the parts comparison, shares the current major, and matches the
current minor whenever strict mode is active; and any returned value is a qualifying
candidate that no qualifying candidate strictly exceeds. -/
theorem check_version_update_correct
    (cvs : List String) (cv : String) (avail : List String)
    (tmpl : Option (String × String)) (_hmem : cv ∈ cvs) :
    (check_version_update cv avail (strictFor cvs (vmajor cv)) tmpl = none ↔
      candidatesOf (vparts cv) (strictFor cvs (vmajor cv)) tmpl avail = []) ∧
    (∀ c, c ∈ candidatesOf (vparts cv) (strictFor cvs (vmajor cv)) tmpl avail ↔
      ∃ v ∈ avail, cleanOf tmpl v = some c ∧ hasAlpha c = false ∧
        partsLt (vparts cv) (vparts c) = true ∧
        (vparts c).getD 0 0 = (vparts cv).getD 0 0 ∧
        (strictFor cvs (vmajor cv) = true → (vparts c).getD 1 0 = (vparts cv).getD 1 0)) ∧
    (∀ m, check_version_update cv avail (strictFor cvs (vmajor cv)) tmpl = some m →
      m ∈ candidatesOf (vparts cv) (strictFor cvs (vmajor cv)) tmpl avail ∧
      ∀ c ∈ candidatesOf (vparts cv) (strictFor cvs (vmajor cv)) tmpl avail,
        partsLt (vparts m) (vparts c) = false) :=
  ⟨bestBy_none _, fun c => candidatesOf_mem _ _ _ _ c,
    fun m hm => ⟨bestBy_mem _ m hm, bestBy_max _ m hm⟩⟩

/-- C4 witness: the spec's end-to-end scenario — minors 1.2 and 1.3 are both tracked
for major 1, so strict mode is active; for current "1.2.0" with upstream candidates
1.2.5 and 1.4.0, the resolver returns 1.2.5 and it is maximal among qualifiers. -/
theorem check_version_update_correct_witness :
    check_version_update "1.2.0" ["1.2.5", "1.4.0"]
        (strictFor ["1.2.0", "1.3.0"] (vmajor "1.2.0")) none = some "1.2.5" ∧
    "1.2.5" ∈ candidatesOf (vparts "1.2.0")
        (strictFor ["1.2.0", "1.3.0"] (vmajor "1.2.0")) none ["1.2.5", "1.4.0"] ∧
    ∀ c ∈ candidatesOf (vparts "1.2.0")
        (strictFor ["1.2.0", "1.3.0"] (vmajor "1.2.0")) none ["1.2.5", "1.4.0"],
      partsLt (vparts "1.2.5") (vparts c) = false := by
  have h := (check_version_update_correct ["1.2.0", "1.3.0"] "1.2.0" ["1.2.5", "1.4.0"]
    none (by decide)).2.2 "1.2.5" (by decide)
  exact ⟨by decide, h.1, h.2⟩

theorem lookupFs_setFs_isSome : ∀ (fs : List (String × String)) (k v f : String),
    (lookupFs (setFs fs k v) f).isSome = (lookupFs fs f).isSome
  | [], _, _, _ => rfl
  | (k0, w) :: rest, k, v, f => by
    by_cases hk : k0 = k
    · subst hk
      by_cases hf : k0 = f
      · subst hf
        simp [setFs, lookupFs]
      · simp [setFs, lookupFs, hf, lookupFs_setFs_isSome rest]
    · by_cases hf : k0 = f
      · subst hf
        simp [setFs, lookupFs, hk]
      · simp [setFs, lookupFs, hk, hf, lookupFs_setFs_isSome rest]

theorem applyFiles_skip_missing (us : List Update) :
    ∀ (ks : List String) (fs : List (String × String)),
      applyFiles us ks fs =
        applyFiles us (ks.filter (fun k => (lookupFs fs k).isSome)) fs
  | [], _ => rfl
  | k :: ks, fs => by
    cases hk : lookupFs fs k with
    | none =>
      have h1 : (fun k => (lookupFs fs k).isSome) k = false := by simp [hk]
      simp only [applyFiles, hk, List.filter_cons, h1, Bool.false_eq_true, if_false]
      exact applyFiles_skip_missing us ks fs
    | some content =>
      have h1 : (fun k => (lookupFs fs k).isSome) k = true := by simp [hk]
      simp only [applyFiles, hk, List.filter_cons, h1, if_true]
      have hfilter : List.filter (fun k1 =>
            (lookupFs (setFs fs k (String.mk (applySeen []
              (us.filter (fun u => u.file == k)) content.data))) k1).isSome) ks
          = List.filter (fun k1 => (lookupFs fs k1).isSome) ks :=
        List.filter_congr (fun a _ => by rw [lookupFs_setFs_isSome])
      rw [applyFiles_skip_missing us ks
        (setFs fs k (String.mk (applySeen [] (us.filter (fun u => u.file == k)) content.data))),
        hfilter]

theorem fileKeys_filter (p : String → Bool) :
    ∀ us : List Update,
      fileKeys (us.filter (fun u => p u.file)) = (fileKeys us).filter p
  | [] => rfl
  | u :: us => by
    by_cases hp : p u.file = true
    · simp only [List.filter_cons, hp, if_true, fileKeys, fileKeys_filter p us]
      congr 1
      rw [List.filter_filter, List.filter_filter]
      exact List.filter_congr (fun a _ => by rw [Bool.and_comm])
    · simp only [List.filter_cons, hp, Bool.false_eq_true, if_false, fileKeys,
        fileKeys_filter p us]
      rw [List.filter_filter]
      have hp' : p u.file = false := by simpa using hp
      exact (List.filter_congr (fun a ha => by
        by_cases hau : a = u.file
        · subst hau; simp [hp']
        · simp [hau])).symm

theorem applyFiles_none (us : List Update) :
    ∀ (ks : List String) (fs : List (String × String)),
      (∀ k ∈ ks, lookupFs fs k = none) → applyFiles us ks fs = (fs, false)
  | [], _, _ => rfl
  | k :: ks, fs, h => by
    have hk := h k (List.mem_cons_self k ks)
    simp only [applyFiles, hk]
    exact applyFiles_none us ks fs (fun x hx => h x (List.mem_cons_of_mem k hx))

theorem fileKeys_mem : ∀ (us : List Update) (k : String),
    k ∈ fileKeys us → ∃ u ∈ us, u.file = k
  | [], _, h => by simp [fileKeys] at h
  | u :: us, k, h => by
    simp only [fileKeys, List.mem_cons] at h
    rcases h with rfl | h
    · exact ⟨u, List.mem_cons_self u us, rfl⟩
    · have h2 := List.mem_of_mem_filter h
      obtain ⟨w, hw, hwk⟩ := fileKeys_mem us k h2
      exact ⟨w, List.mem_cons_of_mem u hw, hwk⟩

theorem applyFiles_filter_updates (us : List Update) (base : List (String × String)) :
    ∀ (ks : List String) (fs : List (String × String)),
      (∀ f, (lookupFs fs f).isSome = (lookupFs base f).isSome) →
      applyFiles us ks fs =
        applyFiles (us.filter (fun u => (lookupFs base u.file).isSome)) ks fs
  | [], _, _ => rfl
  | k :: ks, fs, hdom => by
    cases hk : lookupFs fs k with
    | none =>
      simp only [applyFiles, hk]
      exact applyFiles_filter_updates us base ks fs hdom
    | some content =>
      have hqk : (lookupFs base k).isSome = true := by
        rw [← hdom k, hk]
        rfl
      have hflt : (us.filter (fun u => (lookupFs base u.file).isSome)).filter
            (fun u => u.file == k) = us.filter (fun u => u.file == k) := by
        rw [List.filter_filter]
        exact List.filter_congr (fun u _ => by
          by_cases hu : (u.file == k) = true
          · have hufk : u.file = k := by simpa using hu
            simp [hu, hufk, hqk]
          · have hu' : (u.file == k) = false := by simpa using hu
            simp [hu'])
      simp only [applyFiles, hk, hflt]
      have hdom' : ∀ f, (lookupFs (setFs fs k (String.mk (applySeen []
          (us.filter (fun u => u.file == k)) content.data))) f).isSome
          = (lookupFs base f).isSome := fun f => by
        rw [lookupFs_setFs_isSome, hdom]
      rw [applyFiles_filter_updates us base ks _ hdom']

/-- C7: for every report, base tree and pull-request state, the applier behaves as if
updates whose target file does not exist had been dropped (missing files are skipped
and the run continues, non-fatally); and whenever applying the report leaves every
staged file unchanged — the empty report included — the run exits 0 with no commit and
no pull request. -/
theorem applier_failure_semantics (us : List Update) (base : List (String × String))
    (pr : Bool) :
    createUpdatePR us base pr =
      createUpdatePR (us.filter (fun u => (lookupFs base u.file).isSome)) base pr ∧
    ((applyFiles us (fileKeys us) base).2 = false →
      createUpdatePR us base pr =
        ⟨(applyFiles us (fileKeys us) base).1, false, false, 0⟩) := by
  constructor
  · by_cases hus : us = []
    · subst hus
      rfl
    · by_cases hflt : us.filter (fun u => (lookupFs base u.file).isSome) = []
      · have hall : ∀ u ∈ us, (lookupFs base u.file).isSome = false := by
          intro u hu
          by_contra hns
          have hs : (lookupFs base u.file).isSome = true := by
            cases h2 : (lookupFs base u.file).isSome
            · exact absurd h2 hns
            · rfl
          have : u ∈ us.filter (fun u => (lookupFs base u.file).isSome) :=
            List.mem_filter.mpr ⟨hu, hs⟩
          rw [hflt] at this
          simp at this
        have hnone : ∀ k ∈ fileKeys us, lookupFs base k = none := by
          intro k hkmem
          obtain ⟨u, hu, rfl⟩ := fileKeys_mem us k hkmem
          have := hall u hu
          cases h2 : lookupFs base u.file with
          | none => rfl
          | some w => rw [h2] at this; simp at this
        have hres : applyFiles us (fileKeys us) base = (base, false) :=
          applyFiles_none us (fileKeys us) base hnone
        simp [createUpdatePR, List.isEmpty_iff, hus, hflt, hres]
      · have key : applyFiles us (fileKeys us) base =
            applyFiles (us.filter (fun u => (lookupFs base u.file).isSome))
              (fileKeys (us.filter (fun u => (lookupFs base u.file).isSome))) base := by
          rw [applyFiles_skip_missing us (fileKeys us) base,
            ← fileKeys_filter (fun k => (lookupFs base k).isSome) us,
            applyFiles_filter_updates us base _ base (fun _ => rfl)]
        simp [createUpdatePR, List.isEmpty_iff, hus, hflt, key]
  · intro hch
    by_cases hus : us = []
    · subst hus
      rfl
    · simp [createUpdatePR, List.isEmpty_iff, hus, hch]

/-- C7 witness: a report naming only a missing file is skipped without failing, no file
changes, and the run exits 0 with no commit and no pull request. -/
theorem applier_failure_semantics_witness :
    createUpdatePR [Update.dockerDigest "Dockerfile" "sha256:aa" "sha256:bb" "r"] [] false
      = ⟨[], false, false, 0⟩ :=
  (applier_failure_semantics [Update.dockerDigest "Dockerfile" "sha256:aa" "sha256:bb" "r"]
    [] false).2 (by decide)

/-- The resolution oracle of the re-run scenario (one fixed upstream state): branch
`main` resolves to `shaA`; the repository also has a ref literally named `None` whose
head is `shaB`. -/
def rerunOracle : String → String → Option String := fun _ r =>
  if r = "main" then some shaA else if r = "None" then some shaB else none

/-- The workflow line after the applier rewrites the unpinned reference
`octo/act@main` to `octo/act@<shaA> # main`. -/
def rerunLine1 : String :=
  String.mk (replaceL "octo/act@main".data ("octo/act@" ++ shaA ++ " # main").data
    "      - uses: octo/act@main".data)

/-- The record the scanner produces from the rewritten line: SHA-pinned, but with no
display tag, because `# main` does not match the `# v...` comment pattern. -/
def rerunDep : ActionRec :=
  ⟨"octo/act", some shaA, none, ActionKind.action_pinned, "octo/act@" ++ shaA⟩

/-- C5 (counterexample): re-running the applier with an unchanged report against an
unchanged base (the open PR merely reused) re-creates the commit, so the applier is not
commit-free on re-run; and re-running scan + resolution after applying an
unpinned-action update against the same oracle can yield a non-empty update list: the
rewritten line `octo/act@<shaA> # main` re-scans as pinned with no display tag (the
`# main` comment is not a `v` tag), is re-resolved under the literal ref "None", and
with the same fixed upstream state resurfaces in `updates`. -/
theorem pipeline_rerun_counterexample :
    (createUpdatePR [Update.dockerDigest "Dockerfile" ("sha256:" ++ shaA64)
        ("sha256:" ++ String.mk (List.replicate 64 'b')) "python:3.11"]
        [("Dockerfile", "FROM python:3.11@sha256:" ++ shaA64)] true).committed = true ∧
    scanUsesLine "      - uses: octo/act@main" =
      some ⟨"octo/act", none, some "main", ActionKind.action_unpinned, "octo/act@main"⟩ ∧
    (processActions rerunOracle
        [⟨"octo/act", none, some "main", ActionKind.action_unpinned,
          "octo/act@main"⟩]).updates ≠ [] ∧
    scanUsesLine rerunLine1 = some rerunDep ∧
    (processActions rerunOracle [rerunDep]).updates = [rerunDep] :=
  ⟨by decide, by decide, by decide, by decide, by decide⟩

theorem processDocker_no_updates (fd : String → String → Option String) :
    ∀ ds : List DockerRec,
      (∀ d ∈ ds, d.kind = DockerKind.docker_digest ∧ fd d.image d.tag = d.digest) →
      (processDocker fd ds).updates = []
  | [], _ => rfl
  | d :: ds, h => by
    obtain ⟨hk, hfd⟩ := h d (List.mem_cons_self d ds)
    have ih := processDocker_no_updates fd ds
      (fun x hx => h x (List.mem_cons_of_mem d hx))
    cases hdig : d.digest with
    | none =>
      rw [hdig] at hfd
      simp [processDocker, hfd, ih]
    | some cur =>
      rw [hdig] at hfd
      simp [processDocker, hfd, hk, hdig, ih]

theorem processActions_no_updates (fa : String → String → Option String) :
    ∀ ds : List ActionRec,
      (∀ d ∈ ds, d.kind = ActionKind.action_pinned ∧
        fa (ownerRepo d.action) (pyStr d.tag) = d.sha) →
      (processActions fa ds).updates = []
  | [], _ => rfl
  | d :: ds, h => by
    obtain ⟨hk, hfa⟩ := h d (List.mem_cons_self d ds)
    have ih := processActions_no_updates fa ds
      (fun x hx => h x (List.mem_cons_of_mem d hx))
    cases hsha : d.sha with
    | none =>
      rw [hsha] at hfa
      simp [processActions, hk, hfa, ih]
    | some cur =>
      rw [hsha] at hfa
      simp [processActions, hk, hfa, hsha, ih]

/-- C5 (amended): after a report's updates land in the base so that each Docker record's
digest and each SHA-pinned action record's pin equal what the unchanged oracle resolves
for them, re-running resolution yields an empty update list for those records; but a
rewritten unpinned-action line whose original ref does not start with `v` loses its
display tag on re-scan and is re-resolved under the literal ref "None".  Re-running the
applier with an unchanged report against an unchanged base re-creates the commit (the
commit decision ignores the open-PR state) but opens no new pull request when one is
already open for the fixed branch name, and when applying the report changes no file
content the run exits 0 with no commit and no pull request. -/
theorem pipeline_rerun_amended :
    (∀ (fd : String → String → Option String) (ds : List DockerRec),
      (∀ d ∈ ds, d.kind = DockerKind.docker_digest ∧ fd d.image d.tag = d.digest) →
      (processDocker fd ds).updates = []) ∧
    (∀ (fa : String → String → Option String) (ds : List ActionRec),
      (∀ d ∈ ds, d.kind = ActionKind.action_pinned ∧
        fa (ownerRepo d.action) (pyStr d.tag) = d.sha) →
      (processActions fa ds).updates = []) ∧
    (∀ (us : List Update) (base : List (String × String)),
      (createUpdatePR us base true).prCreated = false) ∧
    (∀ (us : List Update) (base : List (String × String)) (pr : Bool),
      (createUpdatePR us base pr).committed = (createUpdatePR us base (!pr)).committed) ∧
    (∀ (us : List Update) (base : List (String × String)) (pr : Bool),
      (applyFiles us (fileKeys us) base).2 = false →
      (createUpdatePR us base pr).committed = false ∧
      (createUpdatePR us base pr).prCreated = false ∧
      (createUpdatePR us base pr).exitCode = 0) ∧
    (scanUsesLine rerunLine1 = some rerunDep ∧ rerunDep.tag = none ∧
      (processActions rerunOracle [rerunDep]).queries = [("octo/act", "None")]) := by
  refine ⟨processDocker_no_updates, processActions_no_updates, ?_, ?_, ?_, ?_⟩
  · intro us base
    simp only [createUpdatePR]
    split_ifs <;> rfl
  · intro us base pr
    simp only [createUpdatePR]
    split_ifs <;> rfl
  · intro us base pr hch
    by_cases hus : us = []
    · subst hus
      exact ⟨rfl, rfl, rfl⟩
    · refine ⟨?_, ?_, ?_⟩ <;> simp [createUpdatePR, List.isEmpty_iff, hus, hch]
  · exact ⟨by decide, by decide, by decide⟩

/-- C5 witness: a pinned Docker record whose digest matches the oracle's answer does not
resurface as an update, and an applier run that changes nothing commits nothing. -/
theorem pipeline_rerun_amended_witness :
    (processDocker (fun _ _ => some ("sha256:" ++ shaA64))
        [⟨"python", "3.11", some ("sha256:" ++ shaA64), DockerKind.docker_digest,
          "r"⟩]).updates = [] ∧
    (createUpdatePR [Update.dockerDigest "Dockerfile" "sha256:aa" "sha256:bb" "r"]
        [] false).committed = false :=
  ⟨pipeline_rerun_amended.1 (fun _ _ => some ("sha256:" ++ shaA64)) _ (by decide),
   (pipeline_rerun_amended.2.2.2.2.1 _ [] false (by decide)).1⟩
